import Mathlib

/-!
# Verification of the spotiseek fuzzy file-matching core

Shallow embedding of `internal/utils/string.go` (package `utils`): the text
normalizer (`TransliterateToASCII`, `NormalizeString`), the scorer
(`extractRelevantFilename`, `CalculateMatchScore`), the candidate filter
(`FilterMP3Files`) and the selector (`FindBestMatch`).

Modelling conventions:
* Strings are Lean `String`s; the character-level work is done on `List Char`
  (Go iterates over runes; `'.'` and `'/'` are ASCII, so byte-level scans in
  the Go code coincide with rune-level scans).
* Go `float64` arithmetic is embedded exactly over `ℚ`; the constants
  `0.2`, `0.1`, `0.02`, `0.15` become the exact rationals `2/10`, `1/10`,
  `2/100`, `15/100`.
* `sort.Slice` is modelled by its contract: it produces some permutation of
  the input ordered by the comparator, and (per the Go documentation) "The
  sort is not guaranteed to be stable". Accordingly `FindBestMatchRel` takes
  the sorted score list as an argument constrained by `IsSortOf`.
-/

/-- The RE2 character class `\s` used by the two regexps in `NormalizeString`
(`[^a-z0-9\s]` and `\s+`): exactly `[\t\n\f\r ]`. -/
def isReWhite (c : Char) : Bool :=
  decide (c.toNat ∈ ([9, 10, 12, 13, 32] : List Nat))

/-- Characters kept by the regex replacement `[^a-z0-9\s] → " "`:
lowercase ASCII letters and digits (`\s` handled by `isReWhite`). -/
def isLowerAlnum (c : Char) : Bool :=
  decide ((97 ≤ c.toNat ∧ c.toNat ≤ 122) ∨ (48 ≤ c.toNat ∧ c.toNat ≤ 57))

/-- Go's `unicode.IsSpace` (used by `strings.TrimSpace` and
`strings.Fields`): White_Space code points. -/
def goIsSpace (c : Char) : Bool :=
  decide (c.toNat ∈ ([9, 10, 11, 12, 13, 32, 133, 160, 5760, 8192, 8193,
    8194, 8195, 8196, 8197, 8198, 8199, 8200, 8201, 8202, 8232, 8233,
    8239, 8287, 12288] : List Nat))

/-- The `charMappings` map literal of `TransliterateToASCII`, as an
association list (the Go map is only read, never iterated, so the list
order is irrelevant). -/
def charMappingPairs : List (Char × List Char) :=
  [('ø', ['o']), ('Ø', ['O']),
   ('æ', ['a', 'e']), ('Æ', ['A', 'E']),
   ('å', ['a']), ('Å', ['A']),
   ('ü', ['u']), ('Ü', ['U']),
   ('ö', ['o']), ('Ö', ['O']),
   ('ä', ['a']), ('Ä', ['A']),
   ('ñ', ['n']), ('Ñ', ['N']),
   ('ç', ['c']), ('Ç', ['C']),
   ('é', ['e']), ('É', ['E']),
   ('è', ['e']), ('È', ['E']),
   ('ê', ['e']), ('Ê', ['E']),
   ('ë', ['e']), ('Ë', ['E']),
   ('á', ['a']), ('Á', ['A']),
   ('à', ['a']), ('À', ['A']),
   ('â', ['a']), ('Â', ['A']),
   ('ã', ['a']), ('Ã', ['A']),
   ('í', ['i']), ('Í', ['I']),
   ('ì', ['i']), ('Ì', ['I']),
   ('î', ['i']), ('Î', ['I']),
   ('ï', ['i']), ('Ï', ['I']),
   ('ó', ['o']), ('Ó', ['O']),
   ('ò', ['o']), ('Ò', ['O']),
   ('ô', ['o']), ('Ô', ['O']),
   ('õ', ['o']), ('Õ', ['O']),
   ('ú', ['u']), ('Ú', ['U']),
   ('ù', ['u']), ('Ù', ['U']),
   ('û', ['u']), ('Û', ['U']),
   ('ÿ', ['y']), ('Ÿ', ['Y']),
   ('ý', ['y']), ('Ý', ['Y'])]

/-- Lookup in the `charMappings` map. -/
def charMappings (c : Char) : Option (List Char) :=
  (charMappingPairs.find? (fun p => p.1 == c)).map (fun p => p.2)

/-- Canonical decomposition `norm.NFD.String (string r)` from
`golang.org/x/text/unicode/norm`, restricted to the code points this
development evaluates concretely (the Polish letters of the spec's
examples).  `ł`/`Ł` have no canonical decomposition in Unicode; code
points outside the table are likewise treated as having none.  The
general theorems below do not depend on the values of this table: the
scan in `transliterateChar` only ever emits an ASCII component. -/
def nfdDecompose (c : Char) : List Char :=
  if c == 'ż' then ['z', Char.ofNat 0x307]
  else if c == 'Ż' then ['Z', Char.ofNat 0x307]
  else [c]

/-- Go's `unicode.Is (unicode.Mn, ·)` restricted to the code points this
development can feed it: the Combining Diacritical Marks block, which
covers every combining mark produced by `nfdDecompose`. -/
def isMn (c : Char) : Bool :=
  decide (768 ≤ c.toNat ∧ c.toNat ≤ 879)

/-- One iteration of the rune loop of `TransliterateToASCII`: explicit
mapping first, then the ASCII passthrough (`r <= 127`), then the NFD
fallback that writes the first decomposed rune that is not a combining
mark and is ASCII (and nothing when there is none). -/
def transliterateChar (c : Char) : List Char :=
  match charMappings c with
  | some m => m
  | none =>
    if c.toNat ≤ 127 then [c]
    else
      match (nfdDecompose c).find? (fun nr => !isMn nr && nr.toNat ≤ 127) with
      | some nr => [nr]
      | none => []

/-- `TransliterateToASCII` on character lists. -/
def transliterateList (l : List Char) : List Char :=
  l.flatMap transliterateChar

/-- `TransliterateToASCII` converts Unicode characters to ASCII
equivalents. -/
def TransliterateToASCII (input : String) : String :=
  ⟨transliterateList input.data⟩

/-- `strings.ToLower`, restricted to ASCII.  `NormalizeString` only applies
it to the output of `TransliterateToASCII`, which is all-ASCII (theorem
`transliterateList_ascii` below), where Go's Unicode lowering coincides
with the ASCII case shift. -/
def goToLowerChar (c : Char) : Char :=
  if 65 ≤ c.toNat ∧ c.toNat ≤ 90 then Char.ofNat (c.toNat + 32) else c

/-- `strings.ToLower` on character lists. -/
def toLowerList (l : List Char) : List Char :=
  l.map goToLowerChar

/-- One character of `reg.ReplaceAllString(result, " ")` for
`reg = [^a-z0-9\s]`: every character outside the class becomes a single
space. -/
def replaceChar (c : Char) : Char :=
  if isLowerAlnum c || isReWhite c then c else ' '

/-- `regexp [^a-z0-9\s] → " "` on character lists. -/
def replaceNonAlnumList (l : List Char) : List Char :=
  l.map replaceChar

/-- `spaceReg.ReplaceAllString(result, " ")` for `spaceReg = \s+`: each
maximal run of `\s` characters becomes one space. -/
def collapseWhite : List Char → List Char
  | [] => []
  | [c] => if isReWhite c then [' '] else [c]
  | a :: b :: r =>
    if isReWhite a then
      if isReWhite b then collapseWhite (b :: r)
      else ' ' :: collapseWhite (b :: r)
    else a :: collapseWhite (b :: r)

/-- Leading half of `strings.TrimSpace`. -/
def trimLeft (l : List Char) : List Char :=
  l.dropWhile goIsSpace

/-- Trailing half of `strings.TrimSpace`, written structurally: drop the
maximal all-space suffix. -/
def trimRight : List Char → List Char
  | [] => []
  | c :: t =>
    match trimRight t with
    | [] => if goIsSpace c then [] else [c]
    | r => c :: r

/-- `strings.TrimSpace`: strip `unicode.IsSpace` characters from both
ends. -/
def trimSpace (l : List Char) : List Char :=
  trimRight (trimLeft l)

/-- `NormalizeString` on character lists: transliterate, lowercase,
replace `[^a-z0-9\s]` by spaces, collapse `\s+` runs, trim. -/
def normalizeList (l : List Char) : List Char :=
  trimSpace (collapseWhite (replaceNonAlnumList (toLowerList (transliterateList l))))

/-- `NormalizeString` converts a string to normalized form for matching. -/
def NormalizeString (input : String) : String :=
  ⟨normalizeList input.data⟩

/-- `strings.Fields`: split around runs of `unicode.IsSpace` characters.
`acc` holds the current word, reversed. -/
def goFieldsAux : List Char → List Char → List (List Char)
  | [], acc => if acc.isEmpty then [] else [acc.reverse]
  | c :: rest, acc =>
    if goIsSpace c then
      if acc.isEmpty then goFieldsAux rest []
      else acc.reverse :: goFieldsAux rest []
    else goFieldsAux rest (c :: acc)

/-- `strings.Fields` on character lists. -/
def goFields (l : List Char) : List (List Char) :=
  goFieldsAux l []

/-- `strings.Join(words, " ")` on character lists. -/
def joinSpace : List (List Char) → List Char
  | [] => []
  | [w] => w
  | w :: ws => w ++ ' ' :: joinSpace ws

/-- Does `hay` start with `needle`?  (`strings.HasPrefix`.) -/
def startsWith : List Char → List Char → Bool
  | _, [] => true
  | [], _ :: _ => false
  | a :: as, b :: bs => a == b && startsWith as bs

/-- `strings.Contains(hay, needle)`: `needle` occurs contiguously in
`hay`. -/
def containsSub : List Char → List Char → Bool
  | hay, needle =>
    startsWith hay needle ||
      match hay with
      | [] => false
      | _ :: t => containsSub t needle

/-- `extractRelevantFilename` on character lists: last `/`-separated
segment, prefixed by the parent segment and a space when the path has at
least two segments (`strings.Split` never returns an empty list). -/
def extractRelevantL (l : List Char) : List Char :=
  let parts := l.splitOn '/'
  let actual := parts.getLastD []
  if 2 ≤ parts.length then parts.getD (parts.length - 2) [] ++ ' ' :: actual
  else actual

/-- `extractRelevantFilename` extracts the most relevant part of the
filename for matching. -/
def extractRelevantFilename (filename : String) : String :=
  ⟨extractRelevantL filename.data⟩

/-- `MatchScore` represents a match score with details.  `Score` is the
Go `float64`, embedded in `ℚ`. -/
structure MatchScore where
  Score : ℚ
  Filename : String
  Reason : String
deriving DecidableEq, Repr

/-- The normalized query `NormalizeString(query)` of
`CalculateMatchScore`. -/
def normQueryOf (query : String) : List Char :=
  normalizeList query.data

/-- The normalized relevant filename
`NormalizeString(extractRelevantFilename(filename))` of
`CalculateMatchScore`. -/
def normCandidateOf (filename : String) : List Char :=
  normalizeList (extractRelevantL filename.data)

/-- `queryWords := strings.Fields(normalizedQuery)`. -/
def queryWordsOf (query : String) : List (List Char) :=
  goFields (normQueryOf query)

/-- `filenameWords := strings.Fields(normalizedFilename)`. -/
def candidateWordsOf (filename : String) : List (List Char) :=
  goFields (normCandidateOf filename)

/-- The `matchingWords` count: candidate-word occurrences (not
deduplicated) that are members of the query-word set (the Go
`map[string]bool` built from `queryWords` holds exactly the distinct
query words). -/
def matchingWordsOf (query filename : String) : Nat :=
  ((candidateWordsOf filename).filter (fun w => (queryWordsOf query).contains w)).length

/-- The audit `Reason` of the generic branch.  The Go code renders the
four components with `fmt.Sprintf("%.2f", ·)`; this embedding records the
exact rationals and the two counts instead (no claim depends on this
branch's text). -/
def matchReason (base seq orig pen : ℚ) (m n : Nat) : String :=
  "base:" ++ toString base.num ++ "/" ++ toString base.den ++
    " seq:" ++ toString seq.num ++ "/" ++ toString seq.den ++
    " orig:" ++ toString orig.num ++ "/" ++ toString orig.den ++
    " penalty:" ++ toString pen.num ++ "/" ++ toString pen.den ++
    " (" ++ toString m ++ "/" ++ toString n ++ " words)"

/-- `CalculateMatchScore` calculates how well a filename matches the
query: empty-query and exact-match short circuits, then word-overlap base
score, sequence bonus, original-version bonus, extra-words penalty, and
the final two-sided clamp into `[0, 1]`. -/
def CalculateMatchScore (query filename : String) : MatchScore :=
  if queryWordsOf query = [] then
    { Score := 0, Filename := filename, Reason := "empty query" }
  else if normQueryOf query = normCandidateOf filename then
    { Score := 1, Filename := filename, Reason := "exact match" }
  else
    let matchingWords := matchingWordsOf query filename
    let baseScore : ℚ := (matchingWords : ℚ) / (((queryWordsOf query).length : Nat) : ℚ)
    let sequenceBonus : ℚ :=
      if 1 < matchingWords then
        if containsSub (normCandidateOf filename) (joinSpace (queryWordsOf query)) then (2 : ℚ) / 10
        else 0
      else 0
    let originalBonus : ℚ :=
      if containsSub (normCandidateOf filename) "original".data ||
          containsSub (normCandidateOf filename) "original mix".data ||
          containsSub (normCandidateOf filename) "original version".data then (1 : ℚ) / 10
      else 0
    let extraWords : ℤ := ((candidateWordsOf filename).length : ℤ) - (matchingWords : ℤ)
    let extraWordsPenalty : ℚ :=
      if 3 < extraWords then ((extraWords - 3 : ℤ) : ℚ) * ((2 : ℚ) / 100) else 0
    let finalScore := baseScore + sequenceBonus + originalBonus - extraWordsPenalty
    let clampedHigh := if 1 < finalScore then 1 else finalScore
    let clampedLow := if clampedHigh < 0 then 0 else clampedHigh
    { Score := clampedLow, Filename := filename,
      Reason := matchReason baseScore sequenceBonus originalBonus extraWordsPenalty
        matchingWords (queryWordsOf query).length }

/-- `models.SearchResult`. -/
structure SearchResult where
  Username : String
  Filename : String
  Size : ℤ
  Speed : ℤ
  Quality : ℤ
deriving DecidableEq, Repr

/-- `filepath.Ext`: the suffix of the path beginning at the final dot in
the final (`/`-separated) element, empty when that element has no dot.
`extAux` scans the reversed path; `acc` holds the characters already
passed, in original order. -/
def extAux : List Char → List Char → List Char
  | [], _ => []
  | c :: rest, acc =>
    if c == '/' then []
    else if c == '.' then '.' :: acc
    else extAux rest (c :: acc)

/-- `filepath.Ext` on character lists. -/
def goFilepathExt (l : List Char) : List Char :=
  extAux l.reverse []

/-- The per-candidate test of `FilterMP3Files`:
`strings.ToLower(filepath.Ext(result.Filename)) == ".mp3"`. -/
def isMP3File (r : SearchResult) : Bool :=
  toLowerList (goFilepathExt r.Filename.data) == ['.', 'm', 'p', '3']

/-- `FilterMP3Files` filters search results to only include MP3 files. -/
def FilterMP3Files (results : List SearchResult) : List SearchResult :=
  results.filter isMP3File

/-- The score list `FindBestMatch` builds for the filtered results, in
their order. -/
def scoresOf (query : String) (mp3Results : List SearchResult) : List MatchScore :=
  mp3Results.map (fun r => CalculateMatchScore query r.Filename)

/-- Sortedness wrt the `sort.Slice` comparator
`scores[i].Score > scores[j].Score`: scores never increase along the
list. -/
def sortedDescB : List MatchScore → Bool
  | [] => true
  | [_] => true
  | a :: b :: r => decide (b.Score ≤ a.Score) && sortedDescB (b :: r)

/-- The contract of `sort.Slice(scores, less)`: the result is a
permutation of the input that is ordered by the comparator.  The Go
documentation adds: "The sort is not guaranteed to be stable", so nothing
further about the order of equal-score entries may be assumed. -/
def IsSortOf (original sorted : List MatchScore) : Prop :=
  sorted.Perm original ∧ sortedDescB sorted = true

/-- The tail of `FindBestMatch` after the sort: threshold gate at `0.15`
on the top score, then resolution of the winning `MatchScore` back to the
first filtered result with the same filename (falling through to `nil`
like the Go loop if none matches). -/
def selectFrom (mp3Results : List SearchResult) (sorted : List MatchScore) :
    Option SearchResult :=
  match sorted with
  | [] => none
  | top :: _ =>
    if (15 : ℚ) / 100 ≤ top.Score then
      mp3Results.find? (fun r => r.Filename == top.Filename)
    else none

/-- `FindBestMatch` finds the best matching file from search results:
filter to MP3 files (empty ⇒ `nil`), score them, sort the scores with
`sort.Slice` — here passed in as `sorted`, constrained by `IsSortOf` in
the theorems — then gate and resolve. -/
def FindBestMatchRel (query : String) (results : List SearchResult)
    (sorted : List MatchScore) : Option SearchResult :=
  if (FilterMP3Files results).isEmpty then none
  else selectFrom (FilterMP3Files results) sorted

/-- No two adjacent `\s`-class characters (the shape `collapseWhite`
guarantees and the shape on which it is the identity). -/
def noAdjWhite : List Char → Bool
  | [] => true
  | [_] => true
  | a :: b :: r => !(isReWhite a && isReWhite b) && noAdjWhite (b :: r)

/-- Every `\s`-class character of the list is a plain space. -/
def WhiteIsSpace (l : List Char) : Prop :=
  ∀ c ∈ l, isReWhite c = true → c = ' '

/-- The claim's reading of the filter predicate: the substring of the
path after the last `.` (`none` when the path has no dot). -/
def afterLastDot (l : List Char) : Option (List Char) :=
  if '.' ∈ l then some ((l.reverse.takeWhile (fun c => !(c == '.'))).reverse)
  else none

/-- The claim's filter predicate: case-insensitive comparison of the
substring after the last `.` with `mp3`. -/
def specIsMp3 (l : List Char) : Bool :=
  match afterLastDot l with
  | none => false
  | some s => toLowerList s == ['m', 'p', '3']

/-- Claim C1's `baseScore = matchingWords / |queryWords|`. -/
def specBaseScore (query filename : String) : ℚ :=
  (matchingWordsOf query filename : ℚ) / ((queryWordsOf query).length : ℚ)

/-- Claim C1's `sequenceBonus`: `0.2` exactly when `matchingWords > 1`
and the space-joined normalized query occurs contiguously in the
normalized candidate. -/
def specSequenceBonus (query filename : String) : ℚ :=
  if 1 < matchingWordsOf query filename ∧
      containsSub (normCandidateOf filename) (joinSpace (queryWordsOf query)) = true then
    (2 : ℚ) / 10
  else 0

/-- Claim C1's `originalBonus`: `0.1` exactly when the normalized
candidate contains the substring `original`. -/
def specOriginalBonus (filename : String) : ℚ :=
  if containsSub (normCandidateOf filename) "original".data = true then (1 : ℚ) / 10 else 0

/-- Claim C1's `extraWordsPenalty = max(0, (|candidateWords| -
matchingWords) - 3) * 0.02`. -/
def specExtraWordsPenalty (query filename : String) : ℚ :=
  ((max 0 (((candidateWordsOf filename).length : ℤ) - (matchingWordsOf query filename : ℤ) - 3) : ℤ) : ℚ)
    * ((2 : ℚ) / 100)

/-- Claim C1's `clamp(·, 0.0, 1.0)`. -/
def specClamp (x : ℚ) : ℚ :=
  max 0 (min 1 x)

/-- Claim C1's final score formula. -/
def specFinalScore (query filename : String) : ℚ :=
  specClamp (specBaseScore query filename + specSequenceBonus query filename +
    specOriginalBonus filename - specExtraWordsPenalty query filename)

theorem charMappingPairs_keys_nonAscii :
    charMappingPairs.all (fun p => decide (127 < p.1.toNat)) = true := by
  decide

theorem charMappingPairs_values_ascii :
    charMappingPairs.all (fun p => p.2.all (fun c => decide (c.toNat ≤ 127))) = true := by
  decide

theorem charMappings_eq_none_of_ascii (c : Char) (h : c.toNat ≤ 127) :
    charMappings c = none := by
  unfold charMappings
  cases hf : charMappingPairs.find? (fun p => p.1 == c) with
  | none => rfl
  | some p =>
    have hkeys := charMappingPairs_keys_nonAscii
    rw [List.all_eq_true] at hkeys
    have hgt : (127 : Nat) < p.1.toNat := by
      simpa using hkeys p (List.mem_of_find?_eq_some hf)
    have hpc : p.1 = c := by simpa using List.find?_some hf
    rw [hpc] at hgt
    omega

theorem charMappings_values_ascii (c : Char) (m : List Char)
    (hm : charMappings c = some m) : ∀ d ∈ m, d.toNat ≤ 127 := by
  unfold charMappings at hm
  cases hf : charMappingPairs.find? (fun p => p.1 == c) with
  | none => rw [hf] at hm; simp at hm
  | some p =>
    rw [hf] at hm
    simp only [Option.map_some'] at hm
    cases hm
    have hv := charMappingPairs_values_ascii
    rw [List.all_eq_true] at hv
    have := hv p (List.mem_of_find?_eq_some hf)
    rw [List.all_eq_true] at this
    intro d hd
    simpa using this d hd

theorem transliterateChar_of_ascii (c : Char) (h : c.toNat ≤ 127) :
    transliterateChar c = [c] := by
  unfold transliterateChar
  rw [charMappings_eq_none_of_ascii c h]
  simp [h]

theorem mem_transliterateChar_ascii (c d : Char) (h : d ∈ transliterateChar c) :
    d.toNat ≤ 127 := by
  unfold transliterateChar at h
  cases hm : charMappings c with
  | some m =>
    rw [hm] at h
    exact charMappings_values_ascii c m hm d h
  | none =>
    rw [hm] at h
    by_cases hc : c.toNat ≤ 127
    · rw [if_pos hc] at h
      simp at h
      rw [h]
      exact hc
    · rw [if_neg hc] at h
      cases hfind : (nfdDecompose c).find? (fun nr => !isMn nr && nr.toNat ≤ 127) with
      | none => rw [hfind] at h; simp at h
      | some nr =>
        rw [hfind] at h
        simp at h
        have hp := List.find?_some hfind
        simp at hp
        rw [h]
        exact hp.2

theorem mem_transliterateList_ascii (l : List Char) :
    ∀ d ∈ transliterateList l, d.toNat ≤ 127 := by
  intro d hd
  rw [transliterateList, List.mem_flatMap] at hd
  obtain ⟨c, _, hdc⟩ := hd
  exact mem_transliterateChar_ascii c d hdc

theorem transliterateList_id : ∀ l : List Char, (∀ c ∈ l, c.toNat ≤ 127) →
    transliterateList l = l := by
  intro l
  induction l with
  | nil => intro; rfl
  | cons c t ih =>
    intro h
    rw [transliterateList, List.flatMap_cons,
      transliterateChar_of_ascii c (h c (List.mem_cons_self c t))]
    show c :: transliterateList t = c :: t
    rw [ih fun d hd => h d (List.mem_cons_of_mem c hd)]

theorem collapseWhite_cons_shape (b : Char) (r : List Char) :
    ∃ t, collapseWhite (b :: r) = (if isReWhite b then ' ' else b) :: t := by
  induction r generalizing b with
  | nil =>
    by_cases hb : isReWhite b
    · exact ⟨[], by simp [collapseWhite, hb]⟩
    · exact ⟨[], by simp [collapseWhite, hb]⟩
  | cons c rr ih =>
    by_cases hb : isReWhite b
    · by_cases hc : isReWhite c
      · obtain ⟨t, ht⟩ := ih c
        rw [if_pos hc] at ht
        exact ⟨t, by simp [collapseWhite, hb, hc, ht]⟩
      · exact ⟨collapseWhite (c :: rr), by simp [collapseWhite, hb, hc]⟩
    · exact ⟨collapseWhite (c :: rr), by simp [collapseWhite, hb]⟩

theorem mem_collapseWhite : ∀ l : List Char, ∀ c ∈ collapseWhite l,
    (c ∈ l ∧ isReWhite c = false) ∨ c = ' ' := by
  intro l
  induction l with
  | nil => intro c hc; simp [collapseWhite] at hc
  | cons a t ih =>
    intro c hc
    cases t with
    | nil =>
      by_cases ha : isReWhite a
      · simp [collapseWhite, ha] at hc
        right; exact hc
      · simp [collapseWhite, ha] at hc
        left; exact ⟨by simp [hc], by rw [hc]; simpa using ha⟩
    | cons b r =>
      by_cases ha : isReWhite a
      · by_cases hb : isReWhite b
        · rw [show collapseWhite (a :: b :: r) = collapseWhite (b :: r) by
            simp [collapseWhite, ha, hb]] at hc
          rcases ih c hc with ⟨hm, hw⟩ | he
          · exact Or.inl ⟨List.mem_cons_of_mem a hm, hw⟩
          · exact Or.inr he
        · rw [show collapseWhite (a :: b :: r) = ' ' :: collapseWhite (b :: r) by
            simp [collapseWhite, ha, hb]] at hc
          rcases List.mem_cons.mp hc with he | hc2
          · exact Or.inr he
          · rcases ih c hc2 with ⟨hm, hw⟩ | he
            · exact Or.inl ⟨List.mem_cons_of_mem a hm, hw⟩
            · exact Or.inr he
      · rw [show collapseWhite (a :: b :: r) = a :: collapseWhite (b :: r) by
          simp [collapseWhite, ha]] at hc
        rcases List.mem_cons.mp hc with he | hc2
        · exact Or.inl ⟨by rw [he]; exact List.mem_cons_self a _, by rw [he]; simpa using ha⟩
        · rcases ih c hc2 with ⟨hm, hw⟩ | he
          · exact Or.inl ⟨List.mem_cons_of_mem a hm, hw⟩
          · exact Or.inr he

theorem noAdjWhite_tail (a : Char) (t : List Char)
    (h : noAdjWhite (a :: t) = true) : noAdjWhite t = true := by
  cases t with
  | nil => rfl
  | cons b r => simp [noAdjWhite] at h; exact h.2

theorem noAdjWhite_collapseWhite : ∀ l : List Char,
    noAdjWhite (collapseWhite l) = true := by
  intro l
  induction l with
  | nil => rfl
  | cons a t ih =>
    cases t with
    | nil =>
      by_cases ha : isReWhite a <;> simp [collapseWhite, ha, noAdjWhite]
    | cons b r =>
      obtain ⟨t0, ht0⟩ := collapseWhite_cons_shape b r
      by_cases ha : isReWhite a
      · by_cases hb : isReWhite b
        · rw [show collapseWhite (a :: b :: r) = collapseWhite (b :: r) by
            simp [collapseWhite, ha, hb]]
          exact ih
        · rw [show collapseWhite (a :: b :: r) = ' ' :: collapseWhite (b :: r) by
            simp [collapseWhite, ha, hb]]
          rw [ht0, if_neg hb]
          rw [ht0, if_neg hb] at ih
          simp [noAdjWhite, hb]
          exact ih
      · rw [show collapseWhite (a :: b :: r) = a :: collapseWhite (b :: r) by
          simp [collapseWhite, ha]]
        rw [ht0]
        rw [ht0] at ih
        simp [noAdjWhite, ha]
        exact ih

theorem collapseWhite_id : ∀ l : List Char, noAdjWhite l = true → WhiteIsSpace l →
    collapseWhite l = l := by
  intro l
  induction l with
  | nil => intro _ _; rfl
  | cons a t ih =>
    intro h1 h2
    cases t with
    | nil =>
      by_cases ha : isReWhite a
      · have := h2 a (List.mem_cons_self a []) ha
        simp [collapseWhite, ha, this]
      · simp [collapseWhite, ha]
    | cons b r =>
      have htail := ih (noAdjWhite_tail a _ h1)
        (fun c hc hw => h2 c (List.mem_cons_of_mem a hc) hw)
      by_cases ha : isReWhite a
      · have hb : isReWhite b = false := by
          simp [noAdjWhite, ha] at h1
          exact h1.1
        have haSp : a = ' ' := h2 a (List.mem_cons_self a _) ha
        rw [show collapseWhite (a :: b :: r) = ' ' :: collapseWhite (b :: r) by
          simp [collapseWhite, ha, hb]]
        rw [htail, haSp]
      · rw [show collapseWhite (a :: b :: r) = a :: collapseWhite (b :: r) by
          simp [collapseWhite, ha]]
        rw [htail]

theorem trimRight_head (l : List Char) (c : Char) (t : List Char)
    (h : trimRight l = c :: t) : ∃ t0, l = c :: t0 := by
  cases l with
  | nil => simp [trimRight] at h
  | cons a t1 =>
    unfold trimRight at h
    cases htr : trimRight t1 with
    | nil =>
      rw [htr] at h
      by_cases ha : goIsSpace a
      · rw [if_pos ha] at h; cases h
      · rw [if_neg ha] at h
        cases h
        exact ⟨t1, rfl⟩
    | cons x xs =>
      rw [htr] at h
      cases h
      exact ⟨t1, rfl⟩

theorem mem_trimRight : ∀ l : List Char, ∀ c ∈ trimRight l, c ∈ l := by
  intro l
  induction l with
  | nil => intro c hc; simp [trimRight] at hc
  | cons a t ih =>
    intro c hc
    unfold trimRight at hc
    cases htr : trimRight t with
    | nil =>
      rw [htr] at hc
      by_cases ha : goIsSpace a
      · rw [if_pos ha] at hc; simp at hc
      · rw [if_neg ha] at hc
        simp at hc
        simp [hc]
    | cons x xs =>
      rw [htr] at hc
      rcases List.mem_cons.mp hc with he | hm
      · simp [he]
      · exact List.mem_cons_of_mem a (ih c (htr ▸ hm))

theorem noAdjWhite_trimRight : ∀ l : List Char, noAdjWhite l = true →
    noAdjWhite (trimRight l) = true := by
  intro l
  induction l with
  | nil => intro _; rfl
  | cons a t ih =>
    intro h
    have ht := ih (noAdjWhite_tail a t h)
    unfold trimRight
    cases htr : trimRight t with
    | nil =>
      by_cases ha : goIsSpace a
      · rw [if_pos ha]; rfl
      · rw [if_neg ha]; rfl
    | cons x xs =>
      rw [htr] at ht
      obtain ⟨t0, ht0⟩ := trimRight_head t x xs htr
      rw [ht0] at h
      simp [noAdjWhite] at h ⊢
      exact ⟨h.1, ht⟩

theorem trimRight_trimRight : ∀ l : List Char, trimRight (trimRight l) = trimRight l := by
  intro l
  induction l with
  | nil => rfl
  | cons a t ih =>
    have hstep : trimRight (a :: t) = match trimRight t with
      | [] => if goIsSpace a then [] else [a]
      | r => a :: r := rfl
    cases htr : trimRight t with
    | nil =>
      rw [hstep, htr]
      show trimRight (if goIsSpace a = true then [] else [a]) =
        if goIsSpace a = true then [] else [a]
      by_cases ha : goIsSpace a
      · rw [if_pos ha]; rfl
      · rw [if_neg ha]; simp [trimRight, ha]
    | cons x xs =>
      rw [hstep, htr]
      rw [htr] at ih
      show trimRight (a :: x :: xs) = a :: x :: xs
      have : trimRight (a :: x :: xs) = match trimRight (x :: xs) with
        | [] => if goIsSpace a then [] else [a]
        | r => a :: r := rfl
      rw [this, ih]

theorem trimLeft_eq_cons : ∀ l : List Char, ∀ c t, trimLeft l = c :: t →
    goIsSpace c = false := by
  intro l
  induction l with
  | nil => intro c t h; simp [trimLeft] at h
  | cons a t1 ih =>
    intro c t h
    rw [trimLeft, List.dropWhile_cons] at h
    by_cases ha : goIsSpace a
    · rw [if_pos ha] at h
      exact ih c t h
    · rw [if_neg ha] at h
      cases h
      simpa using ha

theorem mem_trimLeft (l : List Char) : ∀ c ∈ trimLeft l, c ∈ l :=
  fun _ hc => (List.dropWhile_sublist goIsSpace).subset hc

theorem noAdjWhite_trimLeft : ∀ l : List Char, noAdjWhite l = true →
    noAdjWhite (trimLeft l) = true := by
  intro l
  induction l with
  | nil => intro _; rfl
  | cons a t ih =>
    intro h
    rw [trimLeft, List.dropWhile_cons]
    by_cases ha : goIsSpace a
    · rw [if_pos ha]
      exact ih (noAdjWhite_tail a t h)
    · rw [if_neg ha]
      exact h

theorem trimSpace_trimSpace (l : List Char) :
    trimSpace (trimSpace l) = trimSpace l := by
  unfold trimSpace
  have key : trimLeft (trimRight (trimLeft l)) = trimRight (trimLeft l) := by
    cases htr : trimRight (trimLeft l) with
    | nil => rfl
    | cons c t =>
      obtain ⟨t0, ht0⟩ := trimRight_head _ _ _ htr
      have hc : goIsSpace c = false := trimLeft_eq_cons l c t0 ht0
      rw [trimLeft, List.dropWhile_cons, if_neg (by simp [hc])]
  rw [key, trimRight_trimRight]

theorem mem_trimSpace (l : List Char) : ∀ c ∈ trimSpace l, c ∈ l :=
  fun c hc => mem_trimLeft l c (mem_trimRight (trimLeft l) c hc)

theorem noAdjWhite_trimSpace (l : List Char) (h : noAdjWhite l = true) :
    noAdjWhite (trimSpace l) = true :=
  noAdjWhite_trimRight _ (noAdjWhite_trimLeft l h)

theorem mem_replaceNonAlnumList (l : List Char) :
    ∀ c ∈ replaceNonAlnumList l, isLowerAlnum c = true ∨ isReWhite c = true := by
  intro c hc
  rw [replaceNonAlnumList, List.mem_map] at hc
  obtain ⟨a, _, rfl⟩ := hc
  unfold replaceChar
  by_cases h : isLowerAlnum a || isReWhite a
  · rw [if_pos h]
    simpa using h
  · rw [if_neg h]
    right
    decide

theorem mem_normalizeList (l : List Char) :
    ∀ c ∈ normalizeList l, isLowerAlnum c = true ∨ c = ' ' := by
  intro c hc
  unfold normalizeList at hc
  have hcol := mem_trimSpace _ c hc
  rcases mem_collapseWhite _ c hcol with ⟨hm, hw⟩ | he
  · rcases mem_replaceNonAlnumList _ c hm with hl | hwt
    · exact Or.inl hl
    · rw [hwt] at hw; cases hw
  · exact Or.inr he

theorem whiteIsSpace_normalizeList (l : List Char) : WhiteIsSpace (normalizeList l) := by
  intro c hc hw
  unfold normalizeList at hc
  have hcol := mem_trimSpace _ c hc
  rcases mem_collapseWhite _ c hcol with ⟨_, hwf⟩ | he
  · rw [hw] at hwf; cases hwf
  · exact he

theorem noAdjWhite_normalizeList (l : List Char) :
    noAdjWhite (normalizeList l) = true :=
  noAdjWhite_trimSpace _ (noAdjWhite_collapseWhite _)

theorem map_fix {α : Type} (f : α → α) : ∀ l : List α, (∀ c ∈ l, f c = c) →
    l.map f = l := by
  intro l
  induction l with
  | nil => intro _; rfl
  | cons a t ih =>
    intro h
    rw [List.map_cons, h a (List.mem_cons_self a t),
      ih fun c hc => h c (List.mem_cons_of_mem a hc)]

theorem isLowerAlnum_toNat_le (c : Char) (h : isLowerAlnum c = true) :
    c.toNat ≤ 127 := by
  simp [isLowerAlnum] at h
  omega

theorem normalizeList_idem (l : List Char) :
    normalizeList (normalizeList l) = normalizeList l := by
  have hmem := mem_normalizeList l
  have h127 : ∀ c ∈ normalizeList l, c.toNat ≤ 127 := by
    intro c hc
    rcases hmem c hc with hl | he
    · exact isLowerAlnum_toNat_le c hl
    · rw [he]; decide
  have e1 : transliterateList (normalizeList l) = normalizeList l :=
    transliterateList_id _ h127
  have e2 : toLowerList (normalizeList l) = normalizeList l := by
    apply map_fix
    intro c hc
    unfold goToLowerChar
    rw [if_neg]
    rcases hmem c hc with hl | he
    · simp [isLowerAlnum] at hl
      omega
    · rw [he]; decide
  have e3 : replaceNonAlnumList (normalizeList l) = normalizeList l := by
    apply map_fix
    intro c hc
    unfold replaceChar
    rw [if_pos]
    rcases hmem c hc with hl | he
    · simp [hl]
    · rw [he]; decide
  have e4 : collapseWhite (normalizeList l) = normalizeList l :=
    collapseWhite_id _ (noAdjWhite_normalizeList l) (whiteIsSpace_normalizeList l)
  show trimSpace (collapseWhite (replaceNonAlnumList (toLowerList
    (transliterateList (normalizeList l))))) = normalizeList l
  rw [e1, e2, e3, e4]
  exact trimSpace_trimSpace _

/-- Claim C5: normalization is idempotent — for every string `s`,
`NormalizeString (NormalizeString s) = NormalizeString s`. -/
theorem claim_C5_normalize_idempotent (s : String) :
    NormalizeString (NormalizeString s) = NormalizeString s :=
  congrArg String.mk (normalizeList_idem s.data)

/-- Claim C6 counterexample: the spec's folding equality fails on the
code — `NormalizeString "Błażej Malinowski"` differs from
`NormalizeString "Blazej Malinowski"`, because `ł` has no entry in the
mapping table and no NFD decomposition, so it is dropped. -/
theorem claim_C6_counterexample :
    NormalizeString "Błażej Malinowski" ≠ NormalizeString "Blazej Malinowski" := by
  decide

/-- Claim C6 (amended): `NormalizeString "Błażej Malinowski"` is
`"bazej malinowski"` (the unmapped, undecomposable `ł` is dropped), which
differs from `NormalizeString "Blazej Malinowski" = "blazej malinowski"`;
the second spec equality `NormalizeString "Rødhåd" = "rodhad"` holds. -/
theorem claim_C6_amended_folding :
    NormalizeString "Błażej Malinowski" = "bazej malinowski" ∧
    NormalizeString "Blazej Malinowski" = "blazej malinowski" ∧
    NormalizeString "Rødhåd" = "rodhad" := by
  refine ⟨?_, ?_, ?_⟩ <;> decide

/-- Claim C8: for every path, when the normalized query tokenizes to an
empty word list, `CalculateMatchScore` returns score `0` with the
"empty query" rationale, as an ordinary value. -/
theorem claim_C8_empty_query (query filename : String)
    (h : queryWordsOf query = []) :
    CalculateMatchScore query filename =
      { Score := 0, Filename := filename, Reason := "empty query" } := by
  unfold CalculateMatchScore
  rw [if_pos h]

theorem claim_C8_witness :
    queryWordsOf "" = [] ∧
    CalculateMatchScore "" "some/file.mp3" =
      { Score := 0, Filename := "some/file.mp3", Reason := "empty query" } :=
  ⟨by decide, claim_C8_empty_query "" "some/file.mp3" (by decide)⟩

/-- Claim C4 counterexample: at `query = ""`, `filename = ""` the
normalized query equals the normalized relevant portion, yet
`CalculateMatchScore` returns score `0` with reason "empty query", not
`1.0` with "exact match": the empty-query check precedes the exact-match
check. -/
theorem claim_C4_counterexample :
    NormalizeString "" = NormalizeString (extractRelevantFilename "") ∧
    (CalculateMatchScore "" "").Score = 0 ∧
    (CalculateMatchScore "" "").Score ≠ 1 ∧
    (CalculateMatchScore "" "").Reason = "empty query" := by
  refine ⟨?_, ?_, ?_, ?_⟩ <;> decide

/-- Claim C4 (amended): whenever the normalized query equals the
normalized relevant portion of the path AND the normalized query
tokenizes to a non-empty word list, `CalculateMatchScore` returns score
`1.0` with rationale "exact match". -/
theorem claim_C4_exact_match (query filename : String)
    (h1 : queryWordsOf query ≠ [])
    (h2 : normQueryOf query = normCandidateOf filename) :
    CalculateMatchScore query filename =
      { Score := 1, Filename := filename, Reason := "exact match" } := by
  unfold CalculateMatchScore
  rw [if_neg h1, if_pos h2]

theorem claim_C4_witness :
    queryWordsOf "song name" ≠ [] ∧
    normQueryOf "song name" = normCandidateOf "song name" ∧
    CalculateMatchScore "song name" "song name" =
      { Score := 1, Filename := "song name", Reason := "exact match" } :=
  ⟨by decide, by decide,
    claim_C4_exact_match "song name" "song name" (by decide) (by decide)⟩

theorem startsWith_append (h a b : List Char)
    (hs : startsWith h (a ++ b) = true) : startsWith h a = true := by
  induction a generalizing h with
  | nil => cases h <;> rfl
  | cons x xs ih =>
    cases h with
    | nil => rw [List.cons_append] at hs; exact absurd hs (by simp [startsWith])
    | cons y ys =>
      rw [List.cons_append] at hs
      unfold startsWith at hs ⊢
      simp only [Bool.and_eq_true] at hs ⊢
      exact ⟨hs.1, ih ys hs.2⟩

theorem containsSub_append (h a b : List Char)
    (hc : containsSub h (a ++ b) = true) : containsSub h a = true := by
  induction h with
  | nil =>
    cases a with
    | nil => rfl
    | cons x xs => rw [List.cons_append] at hc; exact absurd hc (by simp [containsSub, startsWith])
  | cons y ys ih =>
    unfold containsSub at hc ⊢
    simp only [Bool.or_eq_true] at hc ⊢
    rcases hc with hs | hrec
    · exact Or.inl (startsWith_append _ a b hs)
    · exact Or.inr (ih hrec)

/-- Claim C1: outside the empty-query and exact-match short circuits, the
returned score equals
`clamp(baseScore + sequenceBonus + originalBonus - extraWordsPenalty, 0, 1)`
with the components as the claim defines them (`originalBonus` keyed on
the single substring `original`, penalty `max(0, extra - 3) * 0.02`). -/
theorem claim_C1_score_formula (query filename : String)
    (h1 : queryWordsOf query ≠ [])
    (h2 : normQueryOf query ≠ normCandidateOf filename) :
    (CalculateMatchScore query filename).Score = specFinalScore query filename := by
  have horiginalMix : "original mix".data = "original".data ++ " mix".data := rfl
  have horiginalVer : "original version".data = "original".data ++ " version".data := rfl
  have e_orig :
      (if (containsSub (normCandidateOf filename) "original".data ||
            containsSub (normCandidateOf filename) "original mix".data ||
            containsSub (normCandidateOf filename) "original version".data) = true
        then (1 : ℚ) / 10 else 0) = specOriginalBonus filename := by
    unfold specOriginalBonus
    cases hb1 : containsSub (normCandidateOf filename) "original".data
    · have hb2 : containsSub (normCandidateOf filename) "original mix".data = false := by
        cases hb2 : containsSub (normCandidateOf filename) "original mix".data
        · rfl
        · rw [horiginalMix] at hb2
          rw [containsSub_append _ _ _ hb2] at hb1
          cases hb1
      have hb3 : containsSub (normCandidateOf filename) "original version".data = false := by
        cases hb3 : containsSub (normCandidateOf filename) "original version".data
        · rfl
        · rw [horiginalVer] at hb3
          rw [containsSub_append _ _ _ hb3] at hb1
          cases hb1
      simp [hb1, hb2, hb3]
    · simp [hb1]
  have e_seq :
      (if 1 < matchingWordsOf query filename then
        (if containsSub (normCandidateOf filename) (joinSpace (queryWordsOf query)) = true
          then (2 : ℚ) / 10 else 0)
       else 0) = specSequenceBonus query filename := by
    unfold specSequenceBonus
    by_cases hm : 1 < matchingWordsOf query filename
    · by_cases hcs : containsSub (normCandidateOf filename) (joinSpace (queryWordsOf query)) = true
      · simp [hm, hcs]
      · simp [hm, hcs]
    · simp [hm]
  have e_pen :
      (if 3 < ((candidateWordsOf filename).length : ℤ) - (matchingWordsOf query filename : ℤ) then
        ((((candidateWordsOf filename).length : ℤ) - (matchingWordsOf query filename : ℤ) - 3 : ℤ) : ℚ)
          * ((2 : ℚ) / 100)
       else 0) = specExtraWordsPenalty query filename := by
    unfold specExtraWordsPenalty
    by_cases h3 : 3 < ((candidateWordsOf filename).length : ℤ) - (matchingWordsOf query filename : ℤ)
    · rw [if_pos h3, max_eq_right (by omega :
        (0 : ℤ) ≤ ((candidateWordsOf filename).length : ℤ) - (matchingWordsOf query filename : ℤ) - 3)]
    · rw [if_neg h3, max_eq_left (by omega :
        ((candidateWordsOf filename).length : ℤ) - (matchingWordsOf query filename : ℤ) - 3 ≤ 0)]
      simp
  have hclamp : ∀ x : ℚ,
      (if (if 1 < x then (1 : ℚ) else x) < 0 then (0 : ℚ) else if 1 < x then (1 : ℚ) else x)
        = specClamp x := by
    intro x
    unfold specClamp
    by_cases hx : 1 < x
    · rw [if_pos hx, if_neg (by norm_num), min_eq_left (le_of_lt hx),
        max_eq_right (by norm_num : (0 : ℚ) ≤ 1)]
    · by_cases hneg : x < 0
      · rw [if_neg hx, if_pos hneg, min_eq_right (le_of_not_lt hx),
          max_eq_left (le_of_lt hneg)]
      · rw [if_neg hx, if_neg hneg, min_eq_right (le_of_not_lt hx),
          max_eq_right (le_of_not_lt hneg)]
  unfold CalculateMatchScore
  rw [if_neg h1, if_neg h2]
  dsimp only
  rw [e_orig, e_seq, e_pen]
  unfold specFinalScore specBaseScore
  exact hclamp _

theorem claim_C1_witness :
    queryWordsOf "hello world" ≠ [] ∧
    normQueryOf "hello world" ≠ normCandidateOf "dir/hello world tune.mp3" ∧
    (CalculateMatchScore "hello world" "dir/hello world tune.mp3").Score =
      specFinalScore "hello world" "dir/hello world tune.mp3" :=
  ⟨by decide, by decide,
    claim_C1_score_formula "hello world" "dir/hello world tune.mp3" (by decide) (by decide)⟩

theorem toLower_ne_mp3_of_slash (X : List Char) (hX : '/' ∈ X) :
    (toLowerList X == ['m', 'p', '3']) = false := by
  cases heq : toLowerList X == ['m', 'p', '3']
  · rfl
  · have heq2 : toLowerList X = ['m', 'p', '3'] := by
      exact eq_of_beq heq
    have hmem : goToLowerChar '/' ∈ toLowerList X := List.mem_map_of_mem _ hX
    rw [heq2] at hmem
    exact absurd hmem (by decide)

theorem ext_spec_aux : ∀ (rl suf : List Char),
    (toLowerList (extAux rl suf) == ['.', 'm', 'p', '3'])
      = if '.' ∈ rl then
          toLowerList ((rl.takeWhile (fun c => !(c == '.'))).reverse ++ suf)
            == ['m', 'p', '3']
        else false := by
  intro rl
  induction rl with
  | nil => intro suf; simp [extAux, toLowerList]
  | cons c rest ih =>
    intro suf
    by_cases hc : c = '/'
    · have hcd : c ≠ '.' := by rw [hc]; decide
      rw [show extAux (c :: rest) suf = [] by simp [extAux, hc]]
      rw [show (toLowerList [] == ['.', 'm', 'p', '3']) = false by decide]
      by_cases hdot : '.' ∈ c :: rest
      · rw [if_pos hdot]
        have htw : (c :: rest).takeWhile (fun x => !(x == '.'))
            = c :: rest.takeWhile (fun x => !(x == '.')) := by
          rw [List.takeWhile_cons, if_pos (by simp [hcd])]
        rw [htw]
        have hmem : '/' ∈ (c :: rest.takeWhile (fun x => !(x == '.'))).reverse ++ suf := by
          rw [hc]
          exact List.mem_append_left _ (List.mem_reverse.mpr (List.mem_cons_self _ _))
        rw [toLower_ne_mp3_of_slash _ hmem]
      · rw [if_neg hdot]
    · by_cases hd : c = '.'
      · rw [show extAux (c :: rest) suf = '.' :: suf by
          simp [extAux, hc, hd]]
        rw [if_pos (by rw [← hd]; exact List.mem_cons_self c rest)]
        have htw : (c :: rest).takeWhile (fun x => !(x == '.')) = [] := by
          rw [List.takeWhile_cons, if_neg (by simp [hd])]
        rw [htw]
        show (toLowerList ('.' :: suf) == ['.', 'm', 'p', '3'])
          = (toLowerList ([].reverse ++ suf) == ['m', 'p', '3'])
        have hlow : toLowerList ('.' :: suf) = '.' :: toLowerList suf := by
          rw [toLowerList, List.map_cons]
          rfl
        rw [hlow]
        show ('.' :: toLowerList suf == '.' :: ['m', 'p', '3'])
          = (toLowerList ([].reverse ++ suf) == ['m', 'p', '3'])
        simp [List.cons_beq_cons, toLowerList]
      · rw [show extAux (c :: rest) suf = extAux rest (c :: suf) by
          simp [extAux, hc, hd]]
        rw [ih (c :: suf)]
        have htw : (c :: rest).takeWhile (fun x => !(x == '.'))
            = c :: rest.takeWhile (fun x => !(x == '.')) := by
          rw [List.takeWhile_cons, if_pos (by simp [hd])]
        by_cases hdot : '.' ∈ rest
        · rw [if_pos hdot, if_pos (List.mem_cons_of_mem c hdot), htw]
          rw [List.reverse_cons, List.append_assoc]
          rfl
        · have hnotdot : '.' ∉ c :: rest := by
            rw [List.mem_cons]
            rintro (h | h)
            · exact hd h.symm
            · exact hdot h
          rw [if_neg hdot, if_neg hnotdot]

theorem goExt_spec (l : List Char) :
    (toLowerList (goFilepathExt l) == ['.', 'm', 'p', '3']) = specIsMp3 l := by
  rw [goFilepathExt, ext_spec_aux l.reverse []]
  unfold specIsMp3 afterLastDot
  by_cases hdot : '.' ∈ l
  · rw [if_pos (List.mem_reverse.mpr hdot), if_pos hdot]
    rw [List.append_nil]
  · rw [if_neg (fun h => hdot (List.mem_reverse.mp h)), if_neg hdot]

/-- Claim C7: `FilterMP3Files` returns exactly the subsequence of
candidates whose path, read as the claim does (case-insensitive
comparison of the substring after the last `.` against `mp3`), is an MP3
file, in original order without deduplication, and maps the empty input
to the empty output. -/
theorem claim_C7_filter (results : List SearchResult) :
    FilterMP3Files results = results.filter (fun r => specIsMp3 r.Filename.data) ∧
    List.Sublist (FilterMP3Files results) results ∧
    FilterMP3Files ([] : List SearchResult) = [] := by
  refine ⟨?_, ?_, rfl⟩
  · unfold FilterMP3Files
    apply List.filter_congr
    intro r _
    unfold isMP3File
    exact goExt_spec r.Filename.data
  · exact List.filter_sublist _

/-- Claim C9: a candidate with an empty path never survives
`FilterMP3Files`, and `FindBestMatch` scores exactly the filtered
candidates (`scoresOf query (FilterMP3Files results)`), so every
filename passed to `CalculateMatchScore` is non-empty. -/
theorem claim_C9_nonempty_path (results : List SearchResult)
    (r : SearchResult) (h : r ∈ FilterMP3Files results) : r.Filename ≠ "" := by
  intro habs
  rw [FilterMP3Files, List.mem_filter] at h
  have hm := h.2
  unfold isMP3File at hm
  rw [habs] at hm
  exact absurd hm (by decide)

theorem claim_C9_witness :
    (⟨"u", "track.mp3", 1, 0, 0⟩ : SearchResult) ∈
      FilterMP3Files [⟨"u", "track.mp3", 1, 0, 0⟩] ∧
    (⟨"u", "track.mp3", 1, 0, 0⟩ : SearchResult).Filename ≠ "" :=
  ⟨by decide,
    claim_C9_nonempty_path [⟨"u", "track.mp3", 1, 0, 0⟩]
      ⟨"u", "track.mp3", 1, 0, 0⟩ (by decide)⟩

theorem calculateMatchScore_filename (query filename : String) :
    (CalculateMatchScore query filename).Filename = filename := by
  unfold CalculateMatchScore
  split_ifs <;> rfl

theorem sortedDescB_head_max : ∀ (a : MatchScore) (l : List MatchScore),
    sortedDescB (a :: l) = true → ∀ x ∈ a :: l, x.Score ≤ a.Score := by
  intro a l
  induction l generalizing a with
  | nil =>
    intro _ x hx
    rw [List.mem_singleton] at hx
    rw [hx]
  | cons b r ih =>
    intro h x hx
    have hparts : b.Score ≤ a.Score ∧ sortedDescB (b :: r) = true := by
      have h2 := h
      unfold sortedDescB at h2
      simpa using h2
    rcases List.mem_cons.mp hx with rfl | hx2
    · exact le_refl _
    · exact le_trans (ih b hparts.2 x hx2) hparts.1

theorem find?_decomp {α : Type} (p : α → Bool) : ∀ (l : List α) (a : α),
    l.find? p = some a →
      ∃ pre post, l = pre ++ a :: post ∧ p a = true ∧ ∀ x ∈ pre, p x = false := by
  intro l
  induction l with
  | nil => intro a h; simp at h
  | cons b t ih =>
    intro a h
    cases hb : p b
    · rw [List.find?_cons, hb] at h
      obtain ⟨pre, post, heq, hpa, hpre⟩ := ih a h
      refine ⟨b :: pre, post, by rw [heq, List.cons_append], hpa, ?_⟩
      intro x hx
      rcases List.mem_cons.mp hx with rfl | hx2
      · exact hb
      · exact hpre x hx2
    · rw [List.find?_cons, hb] at h
      simp at h
      refine ⟨[], t, by rw [h, List.nil_append], by rw [h] at hb; exact hb, ?_⟩
      intro x hx
      simp at hx

theorem calcScore_exact (query filename : String)
    (h1 : queryWordsOf query ≠ [])
    (h2 : normQueryOf query = normCandidateOf filename) :
    CalculateMatchScore query filename =
      { Score := 1, Filename := filename, Reason := "exact match" } := by
  unfold CalculateMatchScore
  rw [if_neg h1, if_pos h2]

/-- Claim C3: for a non-empty eligible (MP3-filtered) list and any
permutation `sorted` that `sort.Slice` may produce, `FindBestMatch`
returns a winner if and only if the top-ranked score (the head of the
sorted list) is at least the threshold `0.15`. -/
theorem claim_C3_threshold_gate (query : String) (results : List SearchResult)
    (sorted : List MatchScore)
    (hne : FilterMP3Files results ≠ [])
    (hsort : IsSortOf (scoresOf query (FilterMP3Files results)) sorted) :
    (FindBestMatchRel query results sorted).isSome = true ↔
      (15 : ℚ) / 100 ≤ (sorted.headD ⟨0, "", ""⟩).Score := by
  obtain ⟨hperm, hdesc⟩ := hsort
  have hlen : sorted ≠ [] := by
    intro h0
    rw [h0] at hperm
    have h1 := hperm.length_eq
    rw [List.length_nil, scoresOf, List.length_map] at h1
    exact hne (List.eq_nil_of_length_eq_zero h1.symm)
  cases sorted with
  | nil => exact absurd rfl hlen
  | cons top rest =>
    rw [FindBestMatchRel, if_neg (by rw [List.isEmpty_iff]; exact hne)]
    show ((if (15 : ℚ) / 100 ≤ top.Score then
        (FilterMP3Files results).find? (fun r => r.Filename == top.Filename)
      else none).isSome = true) ↔ _
    rw [List.headD_cons]
    by_cases hth : (15 : ℚ) / 100 ≤ top.Score
    · rw [if_pos hth]
      constructor
      · intro _; exact hth
      · intro _
        have htopmem : top ∈ scoresOf query (FilterMP3Files results) :=
          hperm.subset (List.mem_cons_self _ _)
        rw [scoresOf, List.mem_map] at htopmem
        obtain ⟨r, hrmem, hr⟩ := htopmem
        have hpred : (r.Filename == top.Filename) = true := by
          rw [← hr, calculateMatchScore_filename]
          simp
        exact List.find?_isSome.mpr ⟨r, hrmem, hpred⟩
    · rw [if_neg hth]
      simp [hth]

theorem claim_C3_witness :
    (FindBestMatchRel "a mp3" [⟨"u", "a.mp3", 1, 0, 0⟩]
      [CalculateMatchScore "a mp3" "a.mp3"]).isSome = true :=
  (claim_C3_threshold_gate "a mp3" [⟨"u", "a.mp3", 1, 0, 0⟩]
      [CalculateMatchScore "a mp3" "a.mp3"]
      (by decide) ⟨List.Perm.refl _, rfl⟩).mpr
    (by
      rw [List.headD_cons, calcScore_exact "a mp3" "a.mp3" (by decide) (by decide)]
      show (15 : ℚ) / 100 ≤ 1
      norm_num)

/-- Claim C10: whenever `FindBestMatch` returns a winner, the winner is
the first eligible candidate, in original filtered order, whose filename
equals the top sorted score's filename — regardless of which occurrence
produced that score. -/
theorem claim_C10_winner_resolution (query : String) (results : List SearchResult)
    (sorted : List MatchScore) (w : SearchResult)
    (hsort : IsSortOf (scoresOf query (FilterMP3Files results)) sorted)
    (hw : FindBestMatchRel query results sorted = some w) :
    ∃ pre post, FilterMP3Files results = pre ++ w :: post ∧
      w.Filename = (sorted.headD ⟨0, "", ""⟩).Filename ∧
      ∀ c ∈ pre, c.Filename ≠ (sorted.headD ⟨0, "", ""⟩).Filename := by
  rw [FindBestMatchRel] at hw
  by_cases hmp : (FilterMP3Files results).isEmpty = true
  · rw [if_pos hmp] at hw; cases hw
  · rw [if_neg hmp] at hw
    cases sorted with
    | nil => rw [selectFrom] at hw; cases hw
    | cons top rest =>
      have hw2 : (if (15 : ℚ) / 100 ≤ top.Score then
          (FilterMP3Files results).find? (fun r => r.Filename == top.Filename)
        else none) = some w := hw
      by_cases hth : (15 : ℚ) / 100 ≤ top.Score
      · rw [if_pos hth] at hw2
        obtain ⟨pre, post, heq, hpw, hpre⟩ := find?_decomp _ _ _ hw2
        refine ⟨pre, post, heq, ?_, ?_⟩
        · rw [List.headD_cons]
          have hbeq : (w.Filename == top.Filename) = true := by simpa using hpw
          exact eq_of_beq hbeq
        · rw [List.headD_cons]
          intro c hc hceq
          have hfalse := hpre c hc
          rw [hceq] at hfalse
          simp at hfalse
      · rw [if_neg hth] at hw2; cases hw2

theorem claim_C10_witness :
    ∃ pre post,
      FilterMP3Files [(⟨"u", "b.mp3", 1, 0, 0⟩ : SearchResult)] =
        pre ++ (⟨"u", "b.mp3", 1, 0, 0⟩ : SearchResult) :: post ∧
      (⟨"u", "b.mp3", 1, 0, 0⟩ : SearchResult).Filename =
        ([CalculateMatchScore "b mp3" "b.mp3"].headD ⟨0, "", ""⟩).Filename ∧
      ∀ c ∈ pre, c.Filename ≠
        ([CalculateMatchScore "b mp3" "b.mp3"].headD ⟨0, "", ""⟩).Filename :=
  claim_C10_winner_resolution "b mp3" [⟨"u", "b.mp3", 1, 0, 0⟩]
    [CalculateMatchScore "b mp3" "b.mp3"] ⟨"u", "b.mp3", 1, 0, 0⟩
    ⟨List.Perm.refl _, rfl⟩
    (by
      rw [FindBestMatchRel, if_neg (by decide)]
      show (if (15 : ℚ) / 100 ≤ (CalculateMatchScore "b mp3" "b.mp3").Score then
          (FilterMP3Files [(⟨"u", "b.mp3", 1, 0, 0⟩ : SearchResult)]).find?
            (fun r => r.Filename == (CalculateMatchScore "b mp3" "b.mp3").Filename)
        else none) = some ⟨"u", "b.mp3", 1, 0, 0⟩
      rw [calcScore_exact "b mp3" "b.mp3" (by decide) (by decide)]
      rw [if_pos (by norm_num : (15 : ℚ) / 100 ≤
        ({ Score := 1, Filename := "b.mp3", Reason := "exact match" } : MatchScore).Score)]
      decide)

/-- Claim C2 counterexample: with two eligible candidates of equal score
and distinct filenames, the reversed score order is also a legitimate
result of `sort.Slice` (which the Go documentation says is not guaranteed
to be stable), and under it `FindBestMatch` returns the candidate that
appeared second in the input, so "picks whichever of the two appeared
first" is not a property of the code. -/
theorem claim_C2_counterexample :
    IsSortOf (scoresOf "a mp3" (FilterMP3Files
        [⟨"u1", "a.mp3", 1, 0, 0⟩, ⟨"u2", "A.mp3", 2, 0, 0⟩]))
      [CalculateMatchScore "a mp3" "A.mp3", CalculateMatchScore "a mp3" "a.mp3"] ∧
    (CalculateMatchScore "a mp3" "a.mp3").Score =
      (CalculateMatchScore "a mp3" "A.mp3").Score ∧
    FindBestMatchRel "a mp3" [⟨"u1", "a.mp3", 1, 0, 0⟩, ⟨"u2", "A.mp3", 2, 0, 0⟩]
        [CalculateMatchScore "a mp3" "A.mp3", CalculateMatchScore "a mp3" "a.mp3"]
      = some ⟨"u2", "A.mp3", 2, 0, 0⟩ ∧
    (⟨"u2", "A.mp3", 2, 0, 0⟩ : SearchResult) ≠ ⟨"u1", "a.mp3", 1, 0, 0⟩ := by
  have hA : CalculateMatchScore "a mp3" "a.mp3" =
      { Score := 1, Filename := "a.mp3", Reason := "exact match" } :=
    calcScore_exact _ _ (by decide) (by decide)
  have hB : CalculateMatchScore "a mp3" "A.mp3" =
      { Score := 1, Filename := "A.mp3", Reason := "exact match" } :=
    calcScore_exact _ _ (by decide) (by decide)
  refine ⟨⟨?_, ?_⟩, ?_, ?_, by decide⟩
  · exact List.Perm.swap _ _ _
  · rw [show ([CalculateMatchScore "a mp3" "A.mp3", CalculateMatchScore "a mp3" "a.mp3"]
        : List MatchScore)
      = [{ Score := 1, Filename := "A.mp3", Reason := "exact match" },
         { Score := 1, Filename := "a.mp3", Reason := "exact match" }] by rw [hA, hB]]
    simp [sortedDescB]
  · rw [hA, hB]
  · rw [FindBestMatchRel, if_neg (by decide)]
    show (if (15 : ℚ) / 100 ≤ (CalculateMatchScore "a mp3" "A.mp3").Score then
        (FilterMP3Files [⟨"u1", "a.mp3", 1, 0, 0⟩, ⟨"u2", "A.mp3", 2, 0, 0⟩]).find?
          (fun r => r.Filename == (CalculateMatchScore "a mp3" "A.mp3").Filename)
      else none) = some ⟨"u2", "A.mp3", 2, 0, 0⟩
    rw [hB]
    rw [if_pos (by norm_num : (15 : ℚ) / 100 ≤
      ({ Score := 1, Filename := "A.mp3", Reason := "exact match" } : MatchScore).Score)]
    decide

/-- Claim C2 (amended): for every permutation `sort.Slice` may produce,
the returned winner is an eligible candidate attaining the maximal
eligible score; which of several equal-score candidates wins is not
determined by the code (`sort.Slice` is not guaranteed stable; ties that
share the winning filename resolve to the first occurrence, per C10). -/
theorem claim_C2_amended_max_score (query : String) (results : List SearchResult)
    (sorted : List MatchScore) (w : SearchResult)
    (hsort : IsSortOf (scoresOf query (FilterMP3Files results)) sorted)
    (hw : FindBestMatchRel query results sorted = some w) :
    w ∈ FilterMP3Files results ∧
    ∀ r ∈ FilterMP3Files results,
      (CalculateMatchScore query r.Filename).Score ≤
        (CalculateMatchScore query w.Filename).Score := by
  obtain ⟨hperm, hdesc⟩ := hsort
  rw [FindBestMatchRel] at hw
  by_cases hmp : (FilterMP3Files results).isEmpty = true
  · rw [if_pos hmp] at hw; cases hw
  · rw [if_neg hmp] at hw
    cases sorted with
    | nil => rw [selectFrom] at hw; cases hw
    | cons top rest =>
      have hw2 : (if (15 : ℚ) / 100 ≤ top.Score then
          (FilterMP3Files results).find? (fun r => r.Filename == top.Filename)
        else none) = some w := hw
      by_cases hth : (15 : ℚ) / 100 ≤ top.Score
      · rw [if_pos hth] at hw2
        have hwmem : w ∈ FilterMP3Files results := List.mem_of_find?_eq_some hw2
        have hwfn : w.Filename = top.Filename := by
          have hbeq : (w.Filename == top.Filename) = true := by
            simpa using List.find?_some hw2
          exact eq_of_beq hbeq
        have htopmem : top ∈ scoresOf query (FilterMP3Files results) :=
          hperm.subset (List.mem_cons_self _ _)
        rw [scoresOf, List.mem_map] at htopmem
        obtain ⟨r0, _, hr0⟩ := htopmem
        have hr0fn : r0.Filename = top.Filename := by
          rw [← hr0, calculateMatchScore_filename]
        have hwscore : CalculateMatchScore query w.Filename = top := by
          rw [hwfn, ← hr0fn, hr0]
        refine ⟨hwmem, ?_⟩
        intro r hr
        have hmem2 : CalculateMatchScore query r.Filename ∈ top :: rest :=
          hperm.mem_iff.mpr (by rw [scoresOf, List.mem_map]; exact ⟨r, hr, rfl⟩)
        rw [hwscore]
        exact sortedDescB_head_max top rest hdesc _ hmem2
      · rw [if_neg hth] at hw2; cases hw2

theorem claim_C2_amended_witness :
    (⟨"u", "d.mp3", 1, 0, 0⟩ : SearchResult) ∈
      FilterMP3Files [⟨"u", "d.mp3", 1, 0, 0⟩] :=
  (claim_C2_amended_max_score "d mp3" [⟨"u", "d.mp3", 1, 0, 0⟩]
      [CalculateMatchScore "d mp3" "d.mp3"] ⟨"u", "d.mp3", 1, 0, 0⟩
      ⟨List.Perm.refl _, rfl⟩
      (by
        rw [FindBestMatchRel, if_neg (by decide)]
        show (if (15 : ℚ) / 100 ≤ (CalculateMatchScore "d mp3" "d.mp3").Score then
            (FilterMP3Files [(⟨"u", "d.mp3", 1, 0, 0⟩ : SearchResult)]).find?
              (fun r => r.Filename == (CalculateMatchScore "d mp3" "d.mp3").Filename)
          else none) = some ⟨"u", "d.mp3", 1, 0, 0⟩
        rw [calcScore_exact "d mp3" "d.mp3" (by decide) (by decide)]
        rw [if_pos (by norm_num : (15 : ℚ) / 100 ≤
          ({ Score := 1, Filename := "d.mp3", Reason := "exact match" } : MatchScore).Score)]
        decide)).1
